import Mathlib

/-!
Shallow embedding of the `SecureLRUCache` implementation (`src/main.go`).

The Go program keeps two coupled structures under one lock:
  * `cache : map[int]*Node` — the index, mapping a key to the node holding it;
  * a doubly linked list of nodes between two permanent sentinels `head` and
    `tail`, ordered most-recently-used first.

We model the state as:
  * `cache : List Int` — the key set of the Go map (Go map keys are unique;
    the map's codomain is a pointer to the node carrying the key, so under
    invariant I1 the pointed-to node is the unique entry of the list with
    that key, and dereferencing the pointer is modelled by `find?` on the
    list);
  * `order : List (Int × Int)` — the `(key, value)` contents of the nodes
    strictly between the two sentinels, in head-to-tail order.  The sentinels
    themselves carry no data, so they are not represented; `c.tail.prev ==
    c.head` in Go is `order = []` here, `c.head.next` is `order.head?`, and
    `c.tail.prev` is `order.getLast?`.
  * the three metric counters and the `enableMetrics` flag.

Go methods that return `error` are modelled as returning `Option String`
(`none` = `nil` error) together with the post-state; a returned error value is
a synchronous report to the caller, as opposed to a `panic`, which would have
no value to model.  Locking is a no-op in this sequential model: every public
operation runs its whole body under the one cache lock, so the semantics is
the sequential semantics.
-/

structure SecureLRUCache where
  capacity : Int
  cache : List Int
  order : List (Int × Int)
  hits : Int
  misses : Int
  evictions : Int
  enableMetrics : Bool
deriving Repr, DecidableEq

/-- `func NewSecureLRUCache(capacity int) (*SecureLRUCache, error)`:
reject `capacity < 1`, otherwise the empty cache (two linked sentinels,
empty map, zero counters, metrics off). -/
def NewSecureLRUCache (capacity : Int) : Except String SecureLRUCache :=
  if capacity < 1 then
    Except.error "capacity must be at least 1"
  else
    Except.ok { capacity := capacity, cache := [], order := [],
                hits := 0, misses := 0, evictions := 0, enableMetrics := false }

namespace SecureLRUCache

/-- The node the index maps `key` to: under I1 it is the unique list entry
with that key. `none` models a key absent from the map. -/
def lookupNode (c : SecureLRUCache) (key : Int) : Option (Int × Int) :=
  c.order.find? (fun e => e.1 == key)

/-- `node.value` for the node the map't key points to (`0` is never exposed
from a reachable state: the map and list agree by I1). -/
def lookupValue (c : SecureLRUCache) (key : Int) : Int :=
  ((c.lookupNode key).map Prod.snd).getD 0

/-- `func (c *SecureLRUCache) moveToHead(node *Node)`, where `node` is the
node the map associates with `key`.  Go's guards, in order: `node == nil ||
node.prev == nil || node.next == nil` (an unlinked node — here: no list entry
with the key), `node == c.head || node == c.tail` (impossible for a mapped
node: sentinels are never in the map), `node == c.head.next` (already first),
then `removeNode` + `addToHead`, i.e. splice the node out and cons it at the
head. -/
def moveToHead (order : List (Int × Int)) (key : Int) : List (Int × Int) :=
  if (order.head?.map Prod.fst) = some key then
    order
  else
    match order.find? (fun e => e.1 == key) with
    | none => order
    | some e => e :: order.eraseP (fun e => e.1 == key)

/-- `node.value = value` on the node the map associates with `key` (the node
is shared between map and list, so the list entry is updated in place). -/
def setValue (order : List (Int × Int)) (key value : Int) : List (Int × Int) :=
  order.map (fun e => if e.1 == key then (e.1, value) else e)

/-- `func (c *SecureLRUCache) Get(key int) (int, bool)`. -/
def Get (c : SecureLRUCache) (key : Int) : (Int × Bool) × SecureLRUCache :=
  if c.cache.contains key then
    ((c.lookupValue key, true),
     { c with order := moveToHead c.order key,
              hits := if c.enableMetrics then c.hits + 1 else c.hits })
  else
    ((0, false),
     { c with misses := if c.enableMetrics then c.misses + 1 else c.misses })

/-- `func (c *SecureLRUCache) GetOrDefault(key int, defaultValue int) int`. -/
def GetOrDefault (c : SecureLRUCache) (key defaultValue : Int) :
    Int × SecureLRUCache :=
  if c.cache.contains key then
    (c.lookupValue key,
     { c with order := moveToHead c.order key,
              hits := if c.enableMetrics then c.hits + 1 else c.hits })
  else
    (defaultValue,
     { c with misses := if c.enableMetrics then c.misses + 1 else c.misses })

/-- `func (c *SecureLRUCache) Put(key, value int) error`.
Branches in source order: key already mapped (update value in place, promote);
`len(c.cache) >= c.capacity` with `lru := c.tail.prev` a real node
(`lru != c.head` ↔ `order ≠ []`): unlink the tail-most node (`dropLast`),
delete its key from the map, count an eviction, then insert; `lru == c.head`:
report `cache is full and cannot evict` and mutate nothing; otherwise plain
insert: new node, map it, `addToHead` (cons). -/
def Put (c : SecureLRUCache) (key value : Int) :
    Option String × SecureLRUCache :=
  if c.cache.contains key then
    (none, { c with order := moveToHead (setValue c.order key value) key })
  else if c.capacity ≤ (c.cache.length : Int) then
    match c.order.getLast? with
    | some lru =>
      (none,
       { c with
           cache := key :: (c.cache.erase lru.1),
           order := (key, value) :: c.order.dropLast,
           evictions := if c.enableMetrics then c.evictions + 1 else c.evictions })
    | none => (some "cache is full and cannot evict", c)
  else
    (none, { c with cache := key :: c.cache, order := (key, value) :: c.order })

/-- `func (c *SecureLRUCache) Contains(key int) bool`. -/
def Contains (c : SecureLRUCache) (key : Int) : Bool :=
  c.cache.contains key

/-- `func (c *SecureLRUCache) Size() int` = `len(c.cache)`. -/
def Size (c : SecureLRUCache) : Int :=
  (c.cache.length : Int)

/-- `func (c *SecureLRUCache) Capacity() int`. -/
def Capacity (c : SecureLRUCache) : Int :=
  c.capacity

/-- The eviction loop of `Resize`: `for i := 0; i < toRemove; i++ { lru :=
c.tail.prev; if lru == c.head { break }; removeNode; delete; evictions++ }`. -/
def evictLoop (c : SecureLRUCache) : Nat → SecureLRUCache
  | 0 => c
  | n + 1 =>
    match c.order.getLast? with
    | none => c
    | some lru =>
      evictLoop
        { c with
            cache := c.cache.erase lru.1,
            order := c.order.dropLast,
            evictions := if c.enableMetrics then c.evictions + 1 else c.evictions }
        n

/-- `func (c *SecureLRUCache) Resize(newCapacity int) error`.  The loop bound
`toRemove := len(c.cache) - newCapacity` is a positive `int` whenever the
guard holds, so `Nat` subtraction against `newCapacity.toNat` is exact. -/
def Resize (c : SecureLRUCache) (newCapacity : Int) :
    Option String × SecureLRUCache :=
  if newCapacity < 1 then
    (some "capacity must be at least 1", c)
  else
    let c1 :=
      if newCapacity < c.capacity ∧ newCapacity < (c.cache.length : Int) then
        evictLoop c (c.cache.length - newCapacity.toNat)
      else c
    (none, { c1 with capacity := newCapacity })

/-- `func (c *SecureLRUCache) Clear()`: fresh empty map, relink the sentinels
to each other; counters and capacity untouched. -/
def Clear (c : SecureLRUCache) : SecureLRUCache :=
  { c with cache := [], order := [] }

/-- `func (c *SecureLRUCache) Remove(key int) bool`: unlink the mapped node
and delete the key from the map when present. -/
def Remove (c : SecureLRUCache) (key : Int) : Bool × SecureLRUCache :=
  if c.cache.contains key then
    (true,
     { c with
         cache := c.cache.erase key,
         order := c.order.eraseP (fun e => e.1 == key) })
  else
    (false, c)

/-- `func (c *SecureLRUCache) Peek(key int) (int, bool)`: map lookup only,
under the read lock; no list or counter mutation. -/
def Peek (c : SecureLRUCache) (key : Int) : (Int × Bool) × SecureLRUCache :=
  if c.cache.contains key then
    ((c.lookupValue key, true), c)
  else
    ((0, false), c)

/-- `func (c *SecureLRUCache) Keys() []int`: walk `c.head.next` to `c.tail`,
collecting keys. -/
def Keys (c : SecureLRUCache) : List Int :=
  c.order.map Prod.fst

/-- `func (c *SecureLRUCache) Values() []int`. -/
def Values (c : SecureLRUCache) : List Int :=
  c.order.map Prod.snd

end SecureLRUCache

/-- The snapshot structure `CacheDump` (the Go `Items` map is modelled as its
key-value pair list). -/
structure CacheDump where
  capacity : Int
  size : Int
  items : List (Int × Int)
  order : List Int
deriving Repr, DecidableEq

/-- `CacheStats` as filled in by `Stats()`. -/
structure CacheStats where
  hits : Int
  misses : Int
  evictions : Int
  size : Int
  capacity : Int
deriving Repr, DecidableEq

namespace SecureLRUCache

/-- `func (c *SecureLRUCache) Dump() CacheDump`. -/
def Dump (c : SecureLRUCache) : CacheDump :=
  { capacity := c.capacity, size := (c.cache.length : Int),
    items := c.order, order := c.order.map Prod.fst }

/-- `func (c *SecureLRUCache) Stats() CacheStats`. -/
def Stats (c : SecureLRUCache) : CacheStats :=
  { hits := c.hits, misses := c.misses, evictions := c.evictions,
    size := (c.cache.length : Int), capacity := c.capacity }

end SecureLRUCache

/-- A public operation of the cache, for quantifying over call sequences.
`Range` only reads a snapshot under the read lock before running the visitor,
so its effect on the cache state is that of the read-only operations. -/
inductive Op where
  | get (key : Int)
  | getOrDefault (key defaultValue : Int)
  | put (key value : Int)
  | contains (key : Int)
  | size
  | capacity
  | resize (newCapacity : Int)
  | clear
  | remove (key : Int)
  | peek (key : Int)
  | keys
  | values
  | dump
  | stats
deriving Repr, DecidableEq

/-- The state after one public operation (read-only operations, which take
the lock in shared mode and mutate nothing, leave the state unchanged; a
failed `Put`/`Resize` returns its error having left the state unchanged). -/
def applyOp (c : SecureLRUCache) : Op → SecureLRUCache
  | .get key => (c.Get key).2
  | .getOrDefault key d => (c.GetOrDefault key d).2
  | .put key value => (c.Put key value).2
  | .contains _ => c
  | .size => c
  | .capacity => c
  | .resize n => (c.Resize n).2
  | .clear => c.Clear
  | .remove key => (c.Remove key).2
  | .peek key => (c.Peek key).2
  | .keys => c
  | .values => c
  | .dump => c
  | .stats => c

/-- The state after a whole call sequence. -/
def runOps (c : SecureLRUCache) (ops : List Op) : SecureLRUCache :=
  ops.foldl applyOp c

/-- A state is reachable when some sequence of public operations produces it
from some successfully constructed cache. -/
def Reachable (c : SecureLRUCache) : Prop :=
  ∃ (capacity : Int) (c₀ : SecureLRUCache) (ops : List Op),
    NewSecureLRUCache capacity = Except.ok c₀ ∧ c = runOps c₀ ops

/-! ### List-level helper lemmas -/

namespace SecureLRUCache

theorem getLast?_mem_list {l : List Int} {a : Int} (h : l.getLast? = some a) :
    a ∈ l := by
  have hsplit := List.dropLast_append_getLast? a h
  rw [← hsplit]
  simp

theorem perm_cons_eraseP_of_find? {p : Int × Int → Bool}
    {l : List (Int × Int)} {e : Int × Int} (h : l.find? p = some e) :
    l.Perm (e :: l.eraseP p) := by
  induction l with
  | nil => simp at h
  | cons a t ih =>
    by_cases hp : p a
    · rw [List.find?_cons_of_pos _ hp] at h
      cases h
      rw [List.eraseP_cons_of_pos hp]
    · rw [List.find?_cons_of_neg _ (by simpa using hp)] at h
      rw [List.eraseP_cons_of_neg (by simpa using hp)]
      exact ((ih h).cons a).trans (List.Perm.swap e a (t.eraseP p))

theorem map_fst_setValue (order : List (Int × Int)) (k v : Int) :
    (setValue order k v).map Prod.fst = order.map Prod.fst := by
  induction order with
  | nil => rfl
  | cons a t ih =>
    simp only [setValue, List.map_cons] at ih ⊢
    by_cases h : (a.1 == k) = true
    · rw [if_pos h]
      exact congrArg (a.1 :: ·) ih
    · rw [if_neg h]
      exact congrArg (a.1 :: ·) ih

theorem moveToHead_perm (order : List (Int × Int)) (k : Int) :
    ((moveToHead order k).map Prod.fst).Perm (order.map Prod.fst) := by
  unfold moveToHead
  split
  · exact List.Perm.refl _
  · cases hfind : order.find? (fun e => e.1 == k) with
    | none => exact List.Perm.refl _
    | some e => exact ((perm_cons_eraseP_of_find? hfind).map Prod.fst).symm

theorem map_fst_eraseP_key (order : List (Int × Int)) (k : Int) :
    (order.eraseP (fun e => e.1 == k)).map Prod.fst
      = (order.map Prod.fst).erase k := by
  induction order with
  | nil => rfl
  | cons a t ih =>
    rw [List.eraseP_cons, List.map_cons, List.erase_cons]
    by_cases h : (a.1 == k) = true
    · simp [h]
    · have hb : (a.1 == k) = false := by simpa using h
      simp [hb, ih]

theorem map_fst_getLast? {order : List (Int × Int)} {lru : Int × Int}
    (h : order.getLast? = some lru) :
    (order.map Prod.fst).getLast? = some lru.1 := by
  rw [List.getLast?_map, h]
  rfl

theorem erase_getLast_eq_dropLast {l : List Int} {a : Int}
    (h : l.getLast? = some a) (hnd : l.Nodup) : l.erase a = l.dropLast := by
  have hsplit : l.dropLast ++ [a] = l := List.dropLast_append_getLast? a h
  have hnotmem : a ∉ l.dropLast := by
    intro hmem
    rw [← hsplit, List.nodup_append] at hnd
    exact hnd.2.2 hmem (by simp)
  calc l.erase a = (l.dropLast ++ [a]).erase a := by rw [hsplit]
    _ = l.dropLast ++ ([a].erase a) := List.erase_append_right _ hnotmem
    _ = l.dropLast := by simp

theorem map_fst_dropLast (order : List (Int × Int)) :
    order.dropLast.map Prod.fst = (order.map Prod.fst).dropLast :=
  List.map_dropLast Prod.fst order

theorem moveToHead_head {order : List (Int × Int)} {k : Int}
    (hk : k ∈ order.map Prod.fst) :
    ((moveToHead order k).map Prod.fst).head? = some k := by
  unfold moveToHead
  split
  · rw [List.head?_map]
    assumption
  · cases hfind : order.find? (fun e => e.1 == k) with
    | none =>
      exfalso
      obtain ⟨e, he, hek⟩ := List.mem_map.mp hk
      have := List.find?_eq_none.mp hfind e he
      simp [hek] at this
    | some e =>
      have : e.1 = k := by
        have := List.find?_some hfind
        exact eq_of_beq this
      simp [this]

theorem find?_setValue_self {order : List (Int × Int)} {k : Int} (v : Int)
    (hk : k ∈ order.map Prod.fst) :
    (setValue order k v).find? (fun e => e.1 == k) = some (k, v) := by
  induction order with
  | nil => simp at hk
  | cons a t ih =>
    by_cases h : (a.1 == k) = true
    · have hak : a.1 = k := eq_of_beq h
      simp only [setValue, List.map_cons]
      rw [if_pos h, List.find?_cons]
      simp [h, hak]
    · simp only [setValue, List.map_cons]
      rw [if_neg h, List.find?_cons]
      have hb : (a.1 == k) = false := by simpa using h
      have hk' : k ∈ t.map Prod.fst := by
        rcases List.mem_map.mp hk with ⟨e, he, hek⟩
        rcases List.mem_cons.mp he with rfl | he2
        · exact absurd (by simp [hek] : (e.1 == k) = true) h
        · exact List.mem_map.mpr ⟨e, he2, hek⟩
      simp only [hb, cond_false]
      exact ih hk'

theorem find?_moveToHead {order : List (Int × Int)} {k : Int}
    {e : Int × Int} (h : order.find? (fun x => x.1 == k) = some e) :
    (moveToHead order k).find? (fun x => x.1 == k) = some e := by
  unfold moveToHead
  split
  · exact h
  · rw [h, List.find?_cons]
    have hek : (e.1 == k) = true := by simpa using List.find?_some h
    simp [hek]

end SecureLRUCache

/-! ### The structural invariant and its preservation -/

namespace SecureLRUCache

/-- Invariants I1 (index and list hold the same key set), key uniqueness,
I2 (live entries ≤ capacity) and positivity of the capacity, as they hold in
every reachable state. -/
structure WF (c : SecureLRUCache) : Prop where
  perm : c.cache.Perm (c.order.map Prod.fst)
  nodup : c.cache.Nodup
  capPos : 1 ≤ c.capacity
  sizeLe : (c.cache.length : Int) ≤ c.capacity

theorem WF.keys_nodup {c : SecureLRUCache} (h : WF c) :
    (c.order.map Prod.fst).Nodup :=
  h.perm.nodup_iff.mp h.nodup

theorem WF.mem_iff {c : SecureLRUCache} (h : WF c) (k : Int) :
    k ∈ c.cache ↔ k ∈ c.order.map Prod.fst :=
  h.perm.mem_iff

theorem WF.length_eq {c : SecureLRUCache} (h : WF c) :
    c.cache.length = c.order.length := by
  have := h.perm.length_eq
  simpa using this

theorem wf_new {n : Int} {c : SecureLRUCache}
    (h : NewSecureLRUCache n = Except.ok c) : WF c := by
  unfold NewSecureLRUCache at h
  split at h
  · simp at h
  · rename_i hn
    cases h
    refine ⟨List.Perm.refl _, List.nodup_nil, ?_, ?_⟩
    · show (1 : Int) ≤ n
      omega
    · show (((0 : Nat) : Int)) ≤ n
      omega

theorem wf_get {c : SecureLRUCache} (h : WF c) (k : Int) :
    WF (c.Get k).2 := by
  unfold Get
  split
  · exact ⟨h.perm.trans (moveToHead_perm c.order k).symm,
      h.nodup, h.capPos, h.sizeLe⟩
  · exact ⟨h.perm, h.nodup, h.capPos, h.sizeLe⟩

theorem wf_getOrDefault {c : SecureLRUCache} (h : WF c) (k d : Int) :
    WF (c.GetOrDefault k d).2 := by
  unfold GetOrDefault
  split
  · exact ⟨h.perm.trans (moveToHead_perm c.order k).symm,
      h.nodup, h.capPos, h.sizeLe⟩
  · exact ⟨h.perm, h.nodup, h.capPos, h.sizeLe⟩

theorem wf_put {c : SecureLRUCache} (h : WF c) (k v : Int) :
    WF (c.Put k v).2 := by
  unfold Put
  split
  · refine ⟨?_, h.nodup, h.capPos, h.sizeLe⟩
    have hmv := moveToHead_perm (setValue c.order k v) k
    rw [map_fst_setValue] at hmv
    exact h.perm.trans hmv.symm
  · rename_i hc
    have hknotin : k ∉ c.cache := fun hm => hc (List.elem_iff.mpr hm)
    split
    · rename_i hcap
      split
      · rename_i lru heq
        have hlruKeys : (c.order.map Prod.fst).getLast? = some lru.1 :=
          map_fst_getLast? heq
        have hkeysnd := h.keys_nodup
        have hlrumemK : lru.1 ∈ c.order.map Prod.fst :=
          getLast?_mem_list hlruKeys
        have hlrumem : lru.1 ∈ c.cache := (h.mem_iff lru.1).mpr hlrumemK
        have herase : (c.cache.erase lru.1).Perm
            ((c.order.dropLast).map Prod.fst) := by
          have h1 := h.perm.erase lru.1
          rw [erase_getLast_eq_dropLast hlruKeys hkeysnd,
            ← map_fst_dropLast] at h1
          exact h1
        refine ⟨?_, ?_, h.capPos, ?_⟩
        · simpa using herase.cons k
        · refine List.nodup_cons.mpr ⟨?_, h.nodup.erase lru.1⟩
          intro hm
          exact hknotin (List.mem_of_mem_erase hm)
        · show (((k :: c.cache.erase lru.1).length : Nat) : Int) ≤ c.capacity
          have hlen : (c.cache.erase lru.1).length = c.cache.length - 1 :=
            List.length_erase_of_mem hlrumem
          have hpos : 1 ≤ c.cache.length := List.length_pos.mpr
            (List.ne_nil_of_mem hlrumem)
          have := h.sizeLe
          simp only [List.length_cons, hlen]
          omega
      · exact h
    · rename_i hcap
      refine ⟨?_, List.nodup_cons.mpr ⟨hknotin, h.nodup⟩, h.capPos, ?_⟩
      · simpa using h.perm.cons k
      · show (((k :: c.cache).length : Nat) : Int) ≤ c.capacity
        have := h.sizeLe
        simp only [List.length_cons]
        omega

theorem wf_evictLoop {c : SecureLRUCache}
    (h1 : c.cache.Perm (c.order.map Prod.fst)) (h2 : c.cache.Nodup)
    (n : Nat) :
    (evictLoop c n).cache.Perm ((evictLoop c n).order.map Prod.fst) ∧
      (evictLoop c n).cache.Nodup := by
  induction n generalizing c with
  | zero => exact ⟨h1, h2⟩
  | succ n ih =>
    unfold evictLoop
    split
    · exact ⟨h1, h2⟩
    · rename_i lru heq
      apply ih
      · have hlruKeys := map_fst_getLast? heq
        have hkeysnd : (c.order.map Prod.fst).Nodup := h1.nodup_iff.mp h2
        have h3 := h1.erase lru.1
        rw [erase_getLast_eq_dropLast hlruKeys hkeysnd,
          ← map_fst_dropLast] at h3
        exact h3
      · exact h2.erase lru.1

theorem evictLoop_order (c : SecureLRUCache) (n : Nat) :
    (evictLoop c n).order = c.order.take (c.order.length - n) := by
  induction n generalizing c with
  | zero => simp [evictLoop]
  | succ n ih =>
    unfold evictLoop
    split
    · rename_i heq
      have hnil : c.order = [] := List.getLast?_eq_none_iff.mp heq
      rw [hnil]
      simp
    · rename_i lru heq
      rw [ih]
      rw [List.length_dropLast, List.dropLast_eq_take, List.take_take]
      have hmin : min (c.order.length - 1 - n) (c.order.length - 1)
          = c.order.length - (n + 1) := by omega
      rw [hmin]

theorem evictLoop_capacity (c : SecureLRUCache) (n : Nat) :
    (evictLoop c n).capacity = c.capacity := by
  induction n generalizing c with
  | zero => rfl
  | succ n ih =>
    unfold evictLoop
    split
    · rfl
    · exact ih _

theorem wf_resize {c : SecureLRUCache} (h : WF c) (m : Int) :
    WF (c.Resize m).2 := by
  unfold Resize
  split
  · exact h
  · rename_i hm
    show WF { (if m < c.capacity ∧ m < (c.cache.length : Int) then
        evictLoop c (c.cache.length - m.toNat) else c) with capacity := m }
    split
    · rename_i hcond
      obtain ⟨hperm', hnodup'⟩ :=
        wf_evictLoop h.perm h.nodup (c.cache.length - m.toNat)
      refine ⟨hperm', hnodup', show (1 : Int) ≤ m by omega, ?_⟩
      show (((evictLoop c (c.cache.length - m.toNat)).cache.length : Nat) : Int)
        ≤ m
      have hlen' : (evictLoop c (c.cache.length - m.toNat)).cache.length
          = (evictLoop c (c.cache.length - m.toNat)).order.length := by
        have := hperm'.length_eq
        simpa using this
      rw [hlen', evictLoop_order]
      have hle : c.cache.length = c.order.length := h.length_eq
      have hm2 := hcond.2
      simp only [List.length_take]
      omega
    · rename_i hcond
      have h1 := h.sizeLe
      have h2 := h.capPos
      refine ⟨h.perm, h.nodup, show (1 : Int) ≤ m by omega, ?_⟩
      show ((c.cache.length : Nat) : Int) ≤ m
      rcases not_and_or.mp hcond with h3 | h3 <;> omega

theorem wf_clear {c : SecureLRUCache} (h : WF c) : WF c.Clear := by
  refine ⟨List.Perm.refl _, List.nodup_nil, h.capPos, ?_⟩
  show (((0 : Nat)) : Int) ≤ c.capacity
  have := h.capPos
  omega

theorem wf_remove {c : SecureLRUCache} (h : WF c) (k : Int) :
    WF (c.Remove k).2 := by
  unfold Remove
  split
  · refine ⟨?_, h.nodup.erase k, h.capPos, ?_⟩
    · rw [map_fst_eraseP_key]
      exact h.perm.erase k
    · show (((c.cache.erase k).length : Nat) : Int) ≤ c.capacity
      have h1 : (c.cache.erase k).length ≤ c.cache.length :=
        (List.erase_sublist k c.cache).length_le
      have := h.sizeLe
      omega
  · exact h

theorem wf_peek {c : SecureLRUCache} (h : WF c) (k : Int) :
    WF (c.Peek k).2 := by
  unfold Peek
  split
  · exact h
  · exact h

theorem wf_applyOp {c : SecureLRUCache} (h : WF c) (op : Op) :
    WF (applyOp c op) := by
  cases op with
  | get k => exact SecureLRUCache.wf_get h k
  | getOrDefault k d => exact SecureLRUCache.wf_getOrDefault h k d
  | put k v => exact SecureLRUCache.wf_put h k v
  | contains _ => exact h
  | size => exact h
  | capacity => exact h
  | resize n => exact SecureLRUCache.wf_resize h n
  | clear => exact SecureLRUCache.wf_clear h
  | remove k => exact SecureLRUCache.wf_remove h k
  | peek k => exact SecureLRUCache.wf_peek h k
  | keys => exact h
  | values => exact h
  | dump => exact h
  | stats => exact h

theorem wf_runOps {c : SecureLRUCache} (h : WF c) (ops : List Op) :
    WF (runOps c ops) := by
  induction ops generalizing c with
  | nil => exact h
  | cons op rest ih => exact ih (wf_applyOp h op)

theorem reachable_wf {c : SecureLRUCache} (h : Reachable c) : WF c := by
  obtain ⟨cap, c₀, ops, hnew, rfl⟩ := h
  exact wf_runOps (wf_new hnew) ops

end SecureLRUCache

/-! ### Claim theorems -/

/-- A concrete freshly constructed cache, used to instantiate reachability
in concrete scenarios (`NewSecureLRUCache capacity` returns exactly this
state when `capacity ≥ 1`). -/
def emptyCache (capacity : Int) : SecureLRUCache :=
  { capacity := capacity, cache := [], order := [], hits := 0, misses := 0,
    evictions := 0, enableMetrics := false }

namespace SecureLRUCache

/-- Claim C1: in every state reachable by public operations from a
successfully constructed cache, the number of live entries (`Size`, i.e.
`len(c.cache)`) is at most the current capacity. -/
theorem capacity_bound {c : SecureLRUCache} (h : Reachable c) :
    Size c ≤ Capacity c :=
  (reachable_wf h).sizeLe

/-- Witness for C1 at the concrete run `Put(1,1); Put(2,2); Put(3,3)` from a
capacity-2 cache. -/
theorem capacity_bound_witness :
    Size (runOps (emptyCache 2) [Op.put 1 1, Op.put 2 2, Op.put 3 3]) ≤
      Capacity (runOps (emptyCache 2) [Op.put 1 1, Op.put 2 2, Op.put 3 3]) :=
  capacity_bound ⟨2, emptyCache 2, [Op.put 1 1, Op.put 2 2, Op.put 3 3],
    rfl, rfl⟩

/-- Claim C2: in every reachable state, the key set of the index (`cache`
map) equals the key set collected by walking the recency list from the head
sentinel to the tail sentinel (`Keys`). -/
theorem index_list_agreement {c : SecureLRUCache} (h : Reachable c) :
    ∀ k : Int, k ∈ c.cache ↔ k ∈ Keys c :=
  fun k => (reachable_wf h).mem_iff k

/-- Witness for C2 after a mixed run of puts, a promoting get and a remove. -/
theorem index_list_agreement_witness :
    2 ∈ (runOps (emptyCache 2)
        [Op.put 1 1, Op.put 2 2, Op.get 1, Op.put 3 3, Op.remove 2]).cache ↔
      2 ∈ Keys (runOps (emptyCache 2)
        [Op.put 1 1, Op.put 2 2, Op.get 1, Op.put 3 3, Op.remove 2]) :=
  index_list_agreement ⟨2, emptyCache 2,
    [Op.put 1 1, Op.put 2 2, Op.get 1, Op.put 3 3, Op.remove 2], rfl, rfl⟩ 2

/-- Claim C5: `Peek` returns the same `(value, found)` pair as the lookup
performed by `Get`, and leaves the whole state — in particular the list
order as reported by `Keys` and the hit/miss/eviction counters —
unchanged. -/
theorem peek_non_promoting (c : SecureLRUCache) (k : Int) :
    (c.Peek k).1 = (c.Get k).1 ∧ (c.Peek k).2 = c ∧
      Keys (c.Peek k).2 = Keys c ∧
      (c.Peek k).2.hits = c.hits ∧ (c.Peek k).2.misses = c.misses ∧
      (c.Peek k).2.evictions = c.evictions := by
  by_cases hm : k ∈ c.cache
  · simp [Peek, Get, hm]
  · simp [Peek, Get, hm]

/-- Claim C6: requesting a capacity below one makes construction and resize
report the `InvalidCapacity` error to the caller as a value (no abnormal
termination), and a failed `Resize` leaves the cache state unchanged. -/
theorem invalid_capacity_rejected (n : Int) (c : SecureLRUCache)
    (h : n < 1) :
    NewSecureLRUCache n = Except.error "capacity must be at least 1" ∧
      (c.Resize n).1 = some "capacity must be at least 1" ∧
      (c.Resize n).2 = c := by
  unfold NewSecureLRUCache Resize
  rw [if_pos h, if_pos h]
  exact ⟨rfl, rfl, rfl⟩

/-- Witness for C6 at capacity request `0`. -/
theorem invalid_capacity_rejected_witness :
    NewSecureLRUCache 0 = Except.error "capacity must be at least 1" ∧
      ((emptyCache 1).Resize 0).1 = some "capacity must be at least 1" ∧
      ((emptyCache 1).Resize 0).2 = emptyCache 1 :=
  invalid_capacity_rejected 0 (emptyCache 1) (by decide)

/-- Claim C8: from any reachable state (so the capacity is at least one),
`Put` never reports the `cache is full and cannot evict` error: the branch
requires the list to be empty while the index is at capacity, which
contradicts index–list agreement. -/
theorem put_cachefull_unreachable {c : SecureLRUCache} (h : Reachable c)
    (k v : Int) : (c.Put k v).1 = none := by
  have hwf := reachable_wf h
  by_cases hm : k ∈ c.cache
  · simp [Put, hm]
  · by_cases hcap : c.capacity ≤ (c.cache.length : Int)
    · cases heq : c.order.getLast? with
      | none =>
        exfalso
        have hnil : c.order = [] := List.getLast?_eq_none_iff.mp heq
        have hkeys : c.cache.Perm [] := by
          have hp := hwf.perm
          rw [hnil] at hp
          simpa using hp
        have hcache : c.cache = [] := hkeys.eq_nil
        rw [hcache] at hcap
        have := hwf.capPos
        simp at hcap
        omega
      | some lru => simp [Put, hm, hcap, heq]
    · simp [Put, hm, hcap]

/-- Witness for C8: inserting a fresh key into a full capacity-1 cache
succeeds (evicting instead of failing). -/
theorem put_cachefull_unreachable_witness :
    ((runOps (emptyCache 1) [Op.put 1 1]).Put 2 2).1 = none :=
  put_cachefull_unreachable ⟨1, emptyCache 1, [Op.put 1 1], rfl, rfl⟩ 2 2

/-- Claim C9: `Clear` unconditionally empties the cache (size zero, list
back to the two-sentinel empty state) while leaving capacity and the
hit/miss/eviction counters untouched, and clearing twice equals clearing
once. -/
theorem clear_empties_state (c : SecureLRUCache) :
    Size c.Clear = 0 ∧ c.Clear.order = [] ∧
      c.Clear.capacity = c.capacity ∧ c.Clear.hits = c.hits ∧
      c.Clear.misses = c.misses ∧ c.Clear.evictions = c.evictions ∧
      c.Clear.Clear = c.Clear :=
  ⟨rfl, rfl, rfl, rfl, rfl, rfl, rfl⟩

end SecureLRUCache

namespace SecureLRUCache

/-- Claim C4: in any reachable state, `Get` on a present key returns the
stored value of that key's node with `found = true` and leaves the key at
the head of the recency order; on an absent key it returns `(0, false)` and
changes neither the index nor the list. -/
theorem get_reports_and_promotes {c : SecureLRUCache} (h : Reachable c)
    (k : Int) :
    (k ∈ c.cache →
      ∃ v, c.lookupNode k = some (k, v) ∧ (c.Get k).1 = (v, true) ∧
        (Keys (c.Get k).2).head? = some k) ∧
    (k ∉ c.cache →
      (c.Get k).1 = (0, false) ∧ (c.Get k).2.cache = c.cache ∧
        (c.Get k).2.order = c.order) := by
  have hwf := reachable_wf h
  constructor
  · intro hm
    have hkeys : k ∈ c.order.map Prod.fst := (hwf.mem_iff k).mp hm
    obtain ⟨e, he, hpe⟩ := List.mem_map.mp hkeys
    have hsome : (c.order.find? (fun x => x.1 == k)).isSome :=
      List.find?_isSome.mpr ⟨e, he, by simp [hpe]⟩
    obtain ⟨f, hf⟩ := Option.isSome_iff_exists.mp hsome
    have hfk0 := List.find?_some hf
    have hfk : f.1 = k := eq_of_beq (by simpa using hfk0)
    refine ⟨f.2, ?_, ?_, ?_⟩
    · show c.order.find? (fun x => x.1 == k) = some (k, f.2)
      rw [hf, ← hfk]
    · simp [Get, hm, lookupValue, lookupNode, hf]
    · have hhead := moveToHead_head hkeys
      simpa [Get, hm, Keys] using hhead
  · intro hm
    refine ⟨?_, ?_, ?_⟩ <;> simp [Get, hm]

/-- Witness for C4 at the reachable capacity-2 state holding keys 2, 1. -/
theorem get_reports_and_promotes_witness :
    (1 ∈ (runOps (emptyCache 2) [Op.put 1 10, Op.put 2 20]).cache →
      ∃ v, (runOps (emptyCache 2) [Op.put 1 10, Op.put 2 20]).lookupNode 1
          = some (1, v) ∧
        ((runOps (emptyCache 2) [Op.put 1 10, Op.put 2 20]).Get 1).1
          = (v, true) ∧
        (Keys ((runOps (emptyCache 2) [Op.put 1 10, Op.put 2 20]).Get 1).2).head?
          = some 1) ∧
    (1 ∉ (runOps (emptyCache 2) [Op.put 1 10, Op.put 2 20]).cache →
      ((runOps (emptyCache 2) [Op.put 1 10, Op.put 2 20]).Get 1).1
        = (0, false) ∧
      ((runOps (emptyCache 2) [Op.put 1 10, Op.put 2 20]).Get 1).2.cache
        = (runOps (emptyCache 2) [Op.put 1 10, Op.put 2 20]).cache ∧
      ((runOps (emptyCache 2) [Op.put 1 10, Op.put 2 20]).Get 1).2.order
        = (runOps (emptyCache 2) [Op.put 1 10, Op.put 2 20]).order) :=
  get_reports_and_promotes
    ⟨2, emptyCache 2, [Op.put 1 10, Op.put 2 20], rfl, rfl⟩ 1

/-- Claim C3: a `Put` of a fresh key into a reachable state whose size
equals its capacity succeeds, evicts exactly the key that is last in
`Keys()` (removing it from the index), and places the new key at the head
position. -/
theorem put_eviction_tail {c : SecureLRUCache} (h : Reachable c)
    {k v e : Int} (hfull : Size c = Capacity c) (hnew : k ∉ c.cache)
    (hlast : (Keys c).getLast? = some e) :
    (c.Put k v).1 = none ∧ e ∉ (c.Put k v).2.cache ∧
      Keys (c.Put k v).2 = k :: (Keys c).dropLast := by
  have hwf := reachable_wf h
  cases horder : c.order.getLast? with
  | none =>
    rw [Keys, List.getLast?_map, horder] at hlast
    simp at hlast
  | some lru =>
    have helru : lru.1 = e := by
      rw [Keys, List.getLast?_map, horder] at hlast
      simpa using hlast
    have hcap : c.capacity ≤ (c.cache.length : Int) := by
      unfold Size Capacity at hfull
      omega
    have hemem : e ∈ c.cache := by
      have h1 : lru.1 ∈ c.order.map Prod.fst :=
        getLast?_mem_list (map_fst_getLast? horder)
      rw [helru] at h1
      exact (hwf.mem_iff e).mpr h1
    refine ⟨?_, ?_, ?_⟩
    · simp [Put, hnew, hcap, horder]
    · have hstate : (c.Put k v).2.cache = k :: c.cache.erase lru.1 := by
        simp [Put, hnew, hcap, horder]
      rw [hstate, helru]
      intro hcontra
      rcases List.mem_cons.mp hcontra with h1 | h1
      · exact hnew (h1 ▸ hemem)
      · exact hwf.nodup.not_mem_erase h1
    · have hord : (c.Put k v).2.order = (k, v) :: c.order.dropLast := by
        simp [Put, hnew, hcap, horder]
      show ((c.Put k v).2.order.map Prod.fst) = k :: (Keys c).dropLast
      rw [hord, List.map_cons, map_fst_dropLast]
      rfl

/-- Witness for C3: `Put(3, 30)` into the full capacity-2 state with keys
`[2, 1]` evicts key 1. -/
theorem put_eviction_tail_witness :
    ((runOps (emptyCache 2) [Op.put 1 10, Op.put 2 20]).Put 3 30).1 = none ∧
      1 ∉ ((runOps (emptyCache 2) [Op.put 1 10, Op.put 2 20]).Put 3 30).2.cache ∧
      Keys ((runOps (emptyCache 2) [Op.put 1 10, Op.put 2 20]).Put 3 30).2
        = 3 :: (Keys (runOps (emptyCache 2) [Op.put 1 10, Op.put 2 20])).dropLast :=
  put_eviction_tail
    ⟨2, emptyCache 2, [Op.put 1 10, Op.put 2 20], rfl, rfl⟩
    (by decide) (by decide) (by decide)

end SecureLRUCache

namespace SecureLRUCache

/-- Claim C7: from a reachable state of size `n`, `Resize m` with
`1 ≤ m < n` succeeds, keeps exactly the `m` most-recent entries (evicting
the `n − m` tail-most ones, i.e. the kept keys are the first `m` of `Keys`)
and leaves size and capacity equal to `m`; with `n ≤ m` it changes only the
capacity bound. -/
theorem resize_shrink_contract {c : SecureLRUCache} (h : Reachable c)
    {m : Int} (hm : 1 ≤ m) :
    (m < Size c →
      (c.Resize m).1 = none ∧
        Keys (c.Resize m).2 = (Keys c).take m.toNat ∧
        Size (c.Resize m).2 = m ∧
        Capacity (c.Resize m).2 = m) ∧
    (Size c ≤ m →
      (c.Resize m).1 = none ∧ (c.Resize m).2 = { c with capacity := m }) := by
  have hwf := reachable_wf h
  have hnotlt : ¬ m < 1 := by omega
  constructor
  · intro hlt
    unfold Size at hlt
    have hcond : m < c.capacity ∧ m < (c.cache.length : Int) := by
      have := hwf.sizeLe
      exact ⟨by omega, hlt⟩
    have hLL : c.cache.length = c.order.length := hwf.length_eq
    have horder' : (evictLoop c (c.cache.length - m.toNat)).order
        = c.order.take m.toNat := by
      rw [evictLoop_order]
      congr 1
      omega
    obtain ⟨hperm', _⟩ := wf_evictLoop hwf.perm hwf.nodup
      (c.cache.length - m.toNat)
    refine ⟨by simp [Resize, hnotlt], ?_, ?_, ?_⟩
    · have hkk : Keys (c.Resize m).2
          = ((evictLoop c (c.cache.length - m.toNat)).order).map Prod.fst := by
        simp [Resize, hnotlt, hcond, Keys]
      rw [hkk, horder', List.map_take]
      rfl
    · have hcc : (c.Resize m).2.cache
          = (evictLoop c (c.cache.length - m.toNat)).cache := by
        simp [Resize, hnotlt, hcond]
      show ((c.Resize m).2.cache.length : Int) = m
      rw [hcc]
      have hlen2 : (evictLoop c (c.cache.length - m.toNat)).cache.length
          = (evictLoop c (c.cache.length - m.toNat)).order.length := by
        have := hperm'.length_eq
        simpa using this
      rw [hlen2, horder', List.length_take]
      omega
    · simp [Resize, hnotlt, hcond, Capacity]
  · intro hge
    unfold Size at hge
    have hcondF : ¬ (m < c.capacity ∧ m < (c.cache.length : Int)) := by
      rintro ⟨h1, h2⟩
      omega
    exact ⟨by simp [Resize, hnotlt], by simp [Resize, hnotlt, hcondF]⟩

/-- Witness for C7 at the capacity-3 state with keys `[3, 2, 1]`, resized
to 1 (shrink) — the grow branch is exercised at bound 5. -/
theorem resize_shrink_contract_witness :
    (1 < Size (runOps (emptyCache 3) [Op.put 1 1, Op.put 2 2, Op.put 3 3]) →
      ((runOps (emptyCache 3) [Op.put 1 1, Op.put 2 2, Op.put 3 3]).Resize 1).1
          = none ∧
        Keys ((runOps (emptyCache 3)
            [Op.put 1 1, Op.put 2 2, Op.put 3 3]).Resize 1).2
          = (Keys (runOps (emptyCache 3)
              [Op.put 1 1, Op.put 2 2, Op.put 3 3])).take (1 : Int).toNat ∧
        Size ((runOps (emptyCache 3)
            [Op.put 1 1, Op.put 2 2, Op.put 3 3]).Resize 1).2 = 1 ∧
        Capacity ((runOps (emptyCache 3)
            [Op.put 1 1, Op.put 2 2, Op.put 3 3]).Resize 1).2 = 1) ∧
    (Size (runOps (emptyCache 3) [Op.put 1 1, Op.put 2 2, Op.put 3 3]) ≤ 1 →
      ((runOps (emptyCache 3) [Op.put 1 1, Op.put 2 2, Op.put 3 3]).Resize 1).1
          = none ∧
        ((runOps (emptyCache 3) [Op.put 1 1, Op.put 2 2, Op.put 3 3]).Resize 1).2
          = { runOps (emptyCache 3) [Op.put 1 1, Op.put 2 2, Op.put 3 3] with
                capacity := 1 }) :=
  resize_shrink_contract
    ⟨3, emptyCache 3, [Op.put 1 1, Op.put 2 2, Op.put 3 3], rfl, rfl⟩
    (by decide)

/-- Claim C10: after a successful `Put(k, v)` on a reachable state, both
`Get(k)` and `Peek(k)` report `(v, true)` — the stored value round-trips,
whether `k` was fresh or overwritten. -/
theorem put_get_peek_roundtrip {c : SecureLRUCache} (h : Reachable c)
    (k v : Int) (hput : (c.Put k v).1 = none) :
    ((c.Put k v).2.Get k).1 = (v, true) ∧
      ((c.Put k v).2.Peek k).1 = (v, true) := by
  have hwf := reachable_wf h
  have hmain : k ∈ (c.Put k v).2.cache ∧
      (c.Put k v).2.lookupNode k = some (k, v) := by
    by_cases hm : k ∈ c.cache
    · have hkeys : k ∈ c.order.map Prod.fst := (hwf.mem_iff k).mp hm
      have hfind : (setValue c.order k v).find? (fun e => e.1 == k)
          = some (k, v) := find?_setValue_self v hkeys
      have hfind2 := find?_moveToHead hfind
      constructor
      · simp [Put, hm]
      · simpa [Put, hm, lookupNode] using hfind2
    · by_cases hcap : c.capacity ≤ (c.cache.length : Int)
      · cases heq : c.order.getLast? with
        | none =>
          exfalso
          simp [Put, hm, hcap, heq] at hput
        | some lru =>
          constructor
          · simp [Put, hm, hcap, heq]
          · simp [Put, hm, hcap, heq, lookupNode]
      · constructor
        · simp [Put, hm, hcap]
        · simp [Put, hm, hcap, lookupNode]
  obtain ⟨hmem, hnode⟩ := hmain
  constructor
  · simp [Get, hmem, lookupValue, hnode]
  · simp [Peek, hmem, lookupValue, hnode]

/-- Witness for C10: overwriting the resident key 1 with value 99 in a
capacity-2 cache round-trips through both reads. -/
theorem put_get_peek_roundtrip_witness :
    (((runOps (emptyCache 2) [Op.put 1 1]).Put 1 99).2.Get 1).1 = (99, true) ∧
      (((runOps (emptyCache 2) [Op.put 1 1]).Put 1 99).2.Peek 1).1
        = (99, true) :=
  put_get_peek_roundtrip ⟨2, emptyCache 2, [Op.put 1 1], rfl, rfl⟩ 1 99 rfl

end SecureLRUCache
